import Mathlib

/-!
Verification of the `sbm` bookmark-file library: a shallow embedding of
`src/lib.rs` (document model and `Display` rendering) and `src/parser.rs`
(line-oriented parser), with theorems settling the specification claims.

Text is modelled as `List Char` (`Str`); Rust `&str`/`String` values are
their character sequences.  All definitions are executable structural
recursions so that concrete inputs evaluate by `decide`.
-/

deriving instance DecidableEq for Except

/-- Character sequences standing for Rust strings. -/
abbrev Str := List Char

/-- Models Rust `char::is_whitespace`, the test `str::trim` uses: the
Unicode `White_Space` property (U+0009 through U+000D, space, U+0085,
U+00A0, U+1680, U+2000 through U+200A, U+2028, U+2029, U+202F, U+205F,
U+3000). -/
def isWs (c : Char) : Bool :=
  c = ' ' || c = '\t' || c = '\n' || c = '\x0b' || c = '\x0c' || c = '\r' ||
    c = '\x85' || c = '\xa0' || c = '\u1680' || c = '\u2000' ||
    c = '\u2001' || c = '\u2002' || c = '\u2003' || c = '\u2004' ||
    c = '\u2005' || c = '\u2006' || c = '\u2007' || c = '\u2008' ||
    c = '\u2009' || c = '\u200a' || c = '\u2028' || c = '\u2029' ||
    c = '\u202f' || c = '\u205f' || c = '\u3000'

/-- Models Rust `char::is_ascii_whitespace` (space, tab, newline, form
feed, carriage return): the ASCII whitespace notion the specification's
trimming sentence speaks of.  `str::trim` strips strictly more than this. -/
def isAsciiWs (c : Char) : Bool :=
  c = ' ' || c = '\t' || c = '\n' || c = '\x0c' || c = '\r'

/-- Remove the leading whitespace run (models the left half of `str::trim`). -/
def trimLeft (s : Str) : Str := s.dropWhile isWs

/-- Remove the trailing whitespace run (models the right half of `str::trim`). -/
def trimRight (s : Str) : Str := (s.reverse.dropWhile isWs).reverse

/-- Models Rust `str::trim`. -/
def trim (s : Str) : Str := trimRight (trimLeft s)

/-- Models `line.starts_with("//")`. -/
def startsSlashSlash : Str → Bool
  | c :: d :: _ => c = '/' && d = '/'
  | _ => false

/-- Models `line.strip_prefix('#').is_some()`, i.e. the line begins with `#`. -/
def startsHash : Str → Bool
  | c :: _ => c = '#'
  | [] => false

/-- Split at every occurrence of `sep`; returns the first piece and the
remaining pieces, so the piece list is never empty (models `str::split`). -/
def splitChar (sep : Char) : Str → Str × List Str
  | [] => ([], [])
  | c :: cs =>
    let r := splitChar sep cs
    if c = sep then ([], r.1 :: r.2) else (c :: r.1, r.2)

/-- All pieces of splitting on `sep`, in order (models `str::split().collect()`). -/
def splitAll (sep : Char) (s : Str) : List Str :=
  (splitChar sep s).1 :: (splitChar sep s).2

/-- Models `parser::split_pipe`. -/
def split_pipe (line : Str) : List Str := splitAll '|' line

/-- Models the `\r`-stripping Rust `str::lines` applies to a line that was
terminated by `\n`. -/
def stripCR (s : Str) : Str :=
  if s.getLast? = some '\r' then s.dropLast else s

/-- Post-processing of the `\n`-split pieces performed by Rust `str::lines`:
every piece but the last was `\n`-terminated and has a trailing `\r`
stripped; the final piece is kept as is unless it is empty (a trailing
newline produces no extra line). -/
def rustCook : List Str → List Str
  | [] => []
  | [l] => if l.isEmpty then [] else [l]
  | l :: l2 :: ls => stripCR l :: rustCook (l2 :: ls)

/-- Models Rust `str::lines` on the input buffer. -/
def rustLines (data : Str) : List Str := rustCook (splitAll '\n' data)

/-- Models `struct Bookmark` from `src/lib.rs`. -/
structure Bookmark where
  name : Str
  description : Str
  url : Str
deriving DecidableEq

/-- Models `Bookmark::new` (stores its arguments verbatim). -/
def Bookmark.new (name description url : Str) : Bookmark :=
  ⟨name, description, url⟩

/-- Models `struct Header` from `src/lib.rs`. -/
structure Header where
  name : Str
  icon : Option Str
deriving DecidableEq

/-- Models `Header::new` (stores its arguments verbatim). -/
def Header.new (name : Str) (icon : Option Str) : Header :=
  ⟨name, icon⟩

/-- Models `struct Category` from `src/lib.rs`. -/
structure Category where
  header : Header
  bookmarks : List Bookmark
deriving DecidableEq

/-- Models `Category::new`. -/
def Category.new (header : Header) : Category :=
  ⟨header, []⟩

/-- Models `struct Sbm(Vec<Category>)` from `src/lib.rs`. -/
structure Sbm where
  cats : List Category
deriving DecidableEq

/-- Models `Sbm::new`. -/
def Sbm.new (categories : List Category) : Sbm :=
  ⟨categories⟩

/-- Join pieces with a separator (models `Vec::join`). -/
def joinSep (sep : Str) : List Str → Str
  | [] => []
  | [x] => x
  | x :: xs => x ++ sep ++ joinSep sep xs

/-- Models `impl Display for Bookmark`: `"{name}|{description}|{url}"`. -/
def Bookmark.render (b : Bookmark) : Str :=
  b.name ++ '|' :: b.description ++ '|' :: b.url

/-- Models `impl Display for Header`: `"#{name}|{icon}"` or `"#{name}"`. -/
def Header.render (h : Header) : Str :=
  match h.icon with
  | some icon => '#' :: h.name ++ '|' :: icon
  | none => '#' :: h.name

/-- The text of a rendered header line after its leading `#`. -/
def headerBody (h : Header) : Str :=
  match h.icon with
  | some icon => h.name ++ '|' :: icon
  | none => h.name

/-- Models `impl Display for Category`: `"{header}\n{bookmarks joined by newline}"`.
Note the `\n` is written even when the bookmark list is empty. -/
def Category.render (c : Category) : Str :=
  Header.render c.header ++ '\n' :: joinSep ['\n'] (c.bookmarks.map Bookmark.render)

/-- Models `impl Display for Sbm`: category renderings joined by `\n`. -/
def Sbm.render (d : Sbm) : Str :=
  joinSep ['\n'] (d.cats.map Category.render)

/-- The error message returned by `parse_bookmark` on wrong arity
(the `MalformedBookmark` diagnostic of the specification). -/
def bookmarkErrMsg : Str := ("bookmark has wrong number of parts").data

/-- The error message returned by `parse_header` on wrong arity
(the `MalformedHeader` diagnostic of the specification). -/
def headerErrMsg : Str := ("header has wrong number of parts").data

/-- Models `parser::parse_bookmark`: exactly three `|`-separated fields,
each trimmed, in positional order; otherwise the arity error. -/
def parse_bookmark (line : Str) : Except Str Bookmark :=
  match split_pipe line with
  | [a, b, c] => .ok ⟨trim a, trim b, trim c⟩
  | _ => .error bookmarkErrMsg

/-- Models `parser::parse_header`: one or two `|`-separated fields,
trimmed; otherwise the arity error. -/
def parse_header (line : Str) : Except Str Header :=
  match split_pipe line with
  | [a] => .ok ⟨trim a, none⟩
  | [a, b] => .ok ⟨trim a, some (trim b)⟩
  | _ => .error headerErrMsg

/-- Parser state: finalized categories plus the category under construction
(models the `categories` vector and `current` option of `parse_categories`). -/
abbrev ParseState := List Category × Option Category

/-- One iteration of the `parse_categories` loop body on a single line. -/
def parseStep (st : ParseState) (line : Str) : Except Str ParseState :=
  if startsSlashSlash line || (trim line).isEmpty then .ok st
  else if startsHash line then
    match parse_header (trim (line.drop 1)) with
    | .error e => .error e
    | .ok h => .ok (st.1 ++ st.2.toList, some ⟨h, []⟩)
  else
    match st.2 with
    | some c =>
      match parse_bookmark line with
      | .error e => .error e
      | .ok b => .ok (st.1, some ⟨c.header, c.bookmarks ++ [b]⟩)
    | none => .ok st

/-- The `parse_categories` loop over a list of lines. -/
def runLines : List Str → ParseState → Except Str ParseState
  | [], st => .ok st
  | l :: ls, st =>
    match parseStep st l with
    | .error e => .error e
    | .ok st2 => runLines ls st2

/-- Models `parser::parse_categories`: run the loop over `data.lines()`,
then finalize the pending category. -/
def parse_categories (data : Str) : Except Str (List Category) :=
  match runLines (rustLines data) ([], none) with
  | .error e => .error e
  | .ok st => .ok (st.1 ++ st.2.toList)

/-- A line survives the comment/blank filtering of the parse loop. -/
def keep (l : Str) : Bool := !(startsSlashSlash l || (trim l).isEmpty)

/-- The lines of the input that the parser actually classifies. -/
def filteredLines (data : Str) : List Str := (rustLines data).filter keep

/-- The full line decomposition of a rendered category: its header line,
then its rendered bookmark lines; a category without bookmarks contributes
one empty line (the text after its mandatory newline). -/
def catLinesF (c : Category) : List Str :=
  Header.render c.header ::
    (if c.bookmarks.isEmpty then [[]] else c.bookmarks.map Bookmark.render)

/-- The non-blank lines of a rendered category: its header line then its
rendered bookmark lines. -/
def catLines (c : Category) : List Str :=
  Header.render c.header :: c.bookmarks.map Bookmark.render

/-- A string field is well formed when it is already trimmed and contains
neither a newline nor the field separator; every field produced by a
successful parse satisfies this. -/
def wfField (s : Str) : Prop := trim s = s ∧ '\n' ∉ s ∧ '|' ∉ s

/-- All string fields of a header are well formed. -/
def wfHeaderFields (h : Header) : Prop :=
  wfField h.name ∧ ∀ i ∈ h.icon, wfField i

/-- All string fields of a bookmark are well formed. -/
def wfBookmarkFields (b : Bookmark) : Prop :=
  wfField b.name ∧ wfField b.description ∧ wfField b.url

/-- The bookmark name neither begins with `#` nor with `//`, so its
rendered line is classified as a bookmark line again on re-parse. -/
def bkNameOk (b : Bookmark) : Prop :=
  startsHash b.name = false ∧ startsSlashSlash b.name = false

/-- All string fields of a category are well formed. -/
def wfCatFields (c : Category) : Prop :=
  wfHeaderFields c.header ∧ ∀ b ∈ c.bookmarks, wfBookmarkFields b

/-- Every bookmark of the category re-classifies as a bookmark line. -/
def nameOkCat (c : Category) : Prop := ∀ b ∈ c.bookmarks, bkNameOk b

/-- No string field of the category contains a newline. -/
def noNlCat (c : Category) : Prop :=
  '\n' ∉ c.header.name ∧ (∀ i ∈ c.header.icon, '\n' ∉ i) ∧
    ∀ b ∈ c.bookmarks, '\n' ∉ b.name ∧ '\n' ∉ b.description ∧ '\n' ∉ b.url

instance (s : Str) : Decidable (wfField s) := by
  unfold wfField
  infer_instance

instance (h : Header) : Decidable (wfHeaderFields h) := by
  unfold wfHeaderFields
  infer_instance

instance (b : Bookmark) : Decidable (wfBookmarkFields b) := by
  unfold wfBookmarkFields
  infer_instance

instance (b : Bookmark) : Decidable (bkNameOk b) := by
  unfold bkNameOk
  infer_instance

instance (c : Category) : Decidable (wfCatFields c) := by
  unfold wfCatFields
  infer_instance

instance (c : Category) : Decidable (nameOkCat c) := by
  unfold nameOkCat
  infer_instance

instance (c : Category) : Decidable (noNlCat c) := by
  unfold noNlCat
  infer_instance

/-- Specification-level grouping of classified lines, for the order claim:
walking the line list, every line beginning with `#` opens a segment that
collects the following non-header lines in source order.  Returns the
segments (header line paired with its following lines) and the lines that
precede the first header. -/
def specSegs : List Str → List (Str × List Str) × List Str
  | [] => ([], [])
  | l :: ls =>
    let r := specSegs ls
    if startsHash l then ((l, r.2) :: r.1, []) else (r.1, l :: r.2)

/-- A parsed bookmark corresponds to a source line. -/
def bkLineRel (b : Bookmark) (l : Str) : Prop := parse_bookmark l = .ok b

/-- A parsed category corresponds to a source segment: its header parses
from the header line, and its bookmarks are positionally the parses of
the segment's lines. -/
def catSegRel (c : Category) (seg : Str × List Str) : Prop :=
  parse_header (trim (seg.1.drop 1)) = .ok c.header ∧
    List.Forall₂ bkLineRel c.bookmarks seg.2

/-- `t` is `raw` with exactly its leading and trailing whitespace removed:
`raw` decomposes as whitespace, then `t` verbatim, then whitespace, and
`t` neither starts nor ends with whitespace. -/
def isTrimOf (t raw : Str) : Prop :=
  ∃ p q, raw = p ++ t ++ q ∧ (∀ c ∈ p, isWs c = true) ∧
    (∀ c ∈ q, isWs c = true) ∧
    (∀ c, t.head? = some c → isWs c = false) ∧
    (∀ c, t.getLast? = some c → isWs c = false)

/-! ### Trimming lemmas -/

theorem dropWhile_head_not (p : Char → Bool) (l : Str) (a : Char)
    (h : (l.dropWhile p).head? = some a) : p a = false := by
  induction l with
  | nil => simp [List.dropWhile] at h
  | cons c cs ih =>
    rw [List.dropWhile_cons] at h
    by_cases hc : p c
    · rw [if_pos hc] at h
      exact ih h
    · rw [if_neg hc] at h
      simp only [List.head?_cons, Option.some.injEq] at h
      subst h
      exact Bool.eq_false_iff.mpr hc

theorem dropWhile_eq_self_of (p : Char → Bool) (l : Str)
    (h : ∀ a, l.head? = some a → p a = false) : l.dropWhile p = l := by
  cases l with
  | nil => rfl
  | cons c cs =>
    rw [List.dropWhile_cons, if_neg]
    simp [h c rfl]

theorem length_dropWhile_le (p : Char → Bool) (l : Str) :
    (l.dropWhile p).length ≤ l.length := by
  have h := congrArg List.length (List.takeWhile_append_dropWhile p l)
  rw [List.length_append] at h
  omega

theorem dropWhile_eq_self_head (p : Char → Bool) (l : Str) (a : Char)
    (h : l.dropWhile p = l) (ha : l.head? = some a) : p a = false := by
  cases l with
  | nil => simp at ha
  | cons c cs =>
    simp only [List.head?_cons, Option.some.injEq] at ha
    subst ha
    by_contra hp
    rw [Bool.not_eq_false] at hp
    rw [List.dropWhile_cons, if_pos hp] at h
    have hlen := length_dropWhile_le p cs
    have hlc := congrArg List.length h
    simp only [List.length_cons] at hlc
    omega

theorem dropWhile_length_eq (p : Char → Bool) (l : Str)
    (h : (l.dropWhile p).length = l.length) : l.dropWhile p = l := by
  have hsplit : l.takeWhile p ++ l.dropWhile p = l :=
    List.takeWhile_append_dropWhile p l
  have hlen : (l.takeWhile p).length + (l.dropWhile p).length = l.length := by
    rw [← List.length_append, hsplit]
  have htake : l.takeWhile p = [] := by
    have : (l.takeWhile p).length = 0 := by omega
    exact List.eq_nil_of_length_eq_zero this
  rw [htake, List.nil_append] at hsplit
  exact hsplit

theorem trimLeft_decomp (s : Str) :
    ∃ p, (∀ c ∈ p, isWs c = true) ∧ s = p ++ trimLeft s := by
  refine ⟨s.takeWhile isWs, ?_, ?_⟩
  · intro c hc
    exact List.mem_takeWhile_imp hc
  · exact (List.takeWhile_append_dropWhile isWs s).symm

theorem trimRight_decomp (s : Str) :
    ∃ q, (∀ c ∈ q, isWs c = true) ∧ s = trimRight s ++ q := by
  refine ⟨(s.reverse.takeWhile isWs).reverse, ?_, ?_⟩
  · intro c hc
    rw [List.mem_reverse] at hc
    exact List.mem_takeWhile_imp hc
  · have h : s.reverse.takeWhile isWs ++ s.reverse.dropWhile isWs = s.reverse :=
      List.takeWhile_append_dropWhile isWs s.reverse
    have := congrArg List.reverse h
    rw [List.reverse_append, List.reverse_reverse] at this
    exact this.symm

theorem trim_decomp (s : Str) :
    ∃ p q, (∀ c ∈ p, isWs c = true) ∧ (∀ c ∈ q, isWs c = true) ∧
      s = p ++ trim s ++ q := by
  obtain ⟨p, hp, hps⟩ := trimLeft_decomp s
  obtain ⟨q, hq, hqs⟩ := trimRight_decomp (trimLeft s)
  refine ⟨p, q, hp, hq, ?_⟩
  rw [List.append_assoc]
  show s = p ++ (trimRight (trimLeft s) ++ q)
  rw [← hqs]
  exact hps

theorem trimRight_head? (s : Str) (a : Char)
    (h : (trimRight s).head? = some a) : s.head? = some a := by
  obtain ⟨q, _, hs⟩ := trimRight_decomp s
  cases htr : trimRight s with
  | nil => rw [htr] at h; simp at h
  | cons b t =>
    rw [htr] at h
    simp only [List.head?_cons, Option.some.injEq] at h
    rw [hs, htr, ← h]
    rfl

theorem head?_trim_not_ws (s : Str) (a : Char)
    (h : (trim s).head? = some a) : isWs a = false :=
  dropWhile_head_not isWs s a (trimRight_head? (trimLeft s) a h)

theorem getLast?_trimRight_not_ws (s : Str) (a : Char)
    (h : (trimRight s).getLast? = some a) : isWs a = false := by
  unfold trimRight at h
  rw [List.getLast?_reverse] at h
  exact dropWhile_head_not isWs s.reverse a h

theorem getLast?_trim_not_ws (s : Str) (a : Char)
    (h : (trim s).getLast? = some a) : isWs a = false :=
  getLast?_trimRight_not_ws (trimLeft s) a h

theorem trimLeft_eq_self_of (s : Str)
    (h : ∀ a, s.head? = some a → isWs a = false) : trimLeft s = s :=
  dropWhile_eq_self_of isWs s h

theorem trimRight_eq_self_of (s : Str)
    (h : ∀ a, s.getLast? = some a → isWs a = false) : trimRight s = s := by
  unfold trimRight
  rw [dropWhile_eq_self_of isWs s.reverse, List.reverse_reverse]
  intro a ha
  rw [List.head?_reverse] at ha
  exact h a ha

theorem trim_eq_self_of (s : Str)
    (h1 : ∀ a, s.head? = some a → isWs a = false)
    (h2 : ∀ a, s.getLast? = some a → isWs a = false) : trim s = s := by
  unfold trim
  rw [trimLeft_eq_self_of s h1, trimRight_eq_self_of s h2]

theorem trim_idem (s : Str) : trim (trim s) = trim s :=
  trim_eq_self_of (trim s) (head?_trim_not_ws s) (getLast?_trim_not_ws s)

theorem trim_eq_nil_all_ws (s : Str) (h : trim s = []) :
    ∀ c ∈ s, isWs c = true := by
  obtain ⟨p, q, hp, hq, hs⟩ := trim_decomp s
  rw [h, List.append_nil] at hs
  intro c hc
  rw [hs] at hc
  rcases List.mem_append.mp hc with hcp | hcq
  · exact hp c hcp
  · exact hq c hcq

theorem mem_trim (s : Str) (c : Char) (h : c ∈ trim s) : c ∈ s := by
  obtain ⟨p, q, _, _, hs⟩ := trim_decomp s
  rw [hs]
  exact List.mem_append.mpr (Or.inl (List.mem_append.mpr (Or.inr h)))

theorem trim_ne_nil_of_mem (s : Str) (c : Char) (hc : c ∈ s)
    (hws : isWs c = false) : trim s ≠ [] := by
  intro h
  rw [trim_eq_nil_all_ws s h c hc] at hws
  simp at hws

/-! ### Splitting lemmas -/

theorem splitAll_nil (sep : Char) : splitAll sep [] = [[]] := rfl

theorem splitAll_cons_sep (sep : Char) (t : Str) :
    splitAll sep (sep :: t) = [] :: splitAll sep t := by
  simp [splitAll, splitChar]

theorem splitAll_cons_ne (sep c : Char) (t : Str) (h : ¬c = sep) :
    splitAll sep (c :: t) =
      (c :: (splitChar sep t).1) :: (splitChar sep t).2 := by
  simp [splitAll, splitChar, h]

theorem splitAll_nosep (sep : Char) (s : Str) (h : sep ∉ s) :
    splitAll sep s = [s] := by
  induction s with
  | nil => rfl
  | cons c cs ih =>
    have hc : ¬c = sep := fun hcs => h (hcs ▸ List.mem_cons_self c cs)
    have hcs : sep ∉ cs := fun hm => h (List.mem_cons_of_mem c hm)
    have ihe := ih hcs
    rw [splitAll_cons_ne sep c cs hc]
    have h1 : (splitChar sep cs).1 = cs := by
      have : (splitChar sep cs).1 :: (splitChar sep cs).2 = [cs] := ihe
      exact (List.cons.injEq _ _ _ _ ▸ this).1
    have h2 : (splitChar sep cs).2 = [] := by
      have : (splitChar sep cs).1 :: (splitChar sep cs).2 = [cs] := ihe
      exact (List.cons.injEq _ _ _ _ ▸ this).2
    rw [h1, h2]

theorem splitAll_append (sep : Char) (x t : Str) (h : sep ∉ x) :
    splitAll sep (x ++ sep :: t) = x :: splitAll sep t := by
  induction x with
  | nil => rw [List.nil_append, splitAll_cons_sep]
  | cons c cs ih =>
    have hc : ¬c = sep := fun hcs => h (hcs ▸ List.mem_cons_self c cs)
    have hcs : sep ∉ cs := fun hm => h (List.mem_cons_of_mem c hm)
    have ihe := ih hcs
    rw [List.cons_append, splitAll_cons_ne sep c _ hc]
    have h1 : (splitChar sep (cs ++ sep :: t)).1 = cs := by
      have : (splitChar sep (cs ++ sep :: t)).1 ::
          (splitChar sep (cs ++ sep :: t)).2 = cs :: splitAll sep t := ihe
      exact (List.cons.injEq _ _ _ _ ▸ this).1
    have h2 : (splitChar sep (cs ++ sep :: t)).2 = splitAll sep t := by
      have : (splitChar sep (cs ++ sep :: t)).1 ::
          (splitChar sep (cs ++ sep :: t)).2 = cs :: splitAll sep t := ihe
      exact (List.cons.injEq _ _ _ _ ▸ this).2
    rw [h1, h2]

theorem mem_splitAll_not_sep (sep : Char) (s p : Str)
    (hp : p ∈ splitAll sep s) : sep ∉ p := by
  induction s generalizing p with
  | nil =>
    rw [splitAll_nil] at hp
    simp only [List.mem_singleton] at hp
    subst hp
    exact List.not_mem_nil sep
  | cons c cs ih =>
    by_cases hc : c = sep
    · subst hc
      rw [splitAll_cons_sep] at hp
      rcases List.mem_cons.mp hp with h1 | h2
      · subst h1; exact List.not_mem_nil c
      · exact ih p h2
    · rw [splitAll_cons_ne sep c cs hc] at hp
      rcases List.mem_cons.mp hp with h1 | h2
      · subst h1
        intro hmem
        rcases List.mem_cons.mp hmem with he | hm
        · exact hc he.symm
        · have hhd : (splitChar sep cs).1 ∈ splitAll sep cs :=
            List.mem_cons_self _ _
          exact ih _ hhd hm
      · have : p ∈ splitAll sep cs := List.mem_cons_of_mem _ h2
        exact ih p this

theorem mem_of_mem_splitAll (sep : Char) (s p : Str) (c : Char)
    (hp : p ∈ splitAll sep s) (hc : c ∈ p) : c ∈ s := by
  induction s generalizing p with
  | nil =>
    rw [splitAll_nil] at hp
    simp only [List.mem_singleton] at hp
    subst hp
    exact absurd hc (List.not_mem_nil c)
  | cons a cs ih =>
    by_cases ha : a = sep
    · subst ha
      rw [splitAll_cons_sep] at hp
      rcases List.mem_cons.mp hp with h1 | h2
      · subst h1; exact absurd hc (List.not_mem_nil c)
      · exact List.mem_cons_of_mem a (ih p h2 hc)
    · rw [splitAll_cons_ne sep a cs ha] at hp
      rcases List.mem_cons.mp hp with h1 | h2
      · subst h1
        rcases List.mem_cons.mp hc with he | hm
        · exact he ▸ List.mem_cons_self a cs
        · have hhd : (splitChar sep cs).1 ∈ splitAll sep cs :=
            List.mem_cons_self _ _
          exact List.mem_cons_of_mem a (ih _ hhd hm)
      · have : p ∈ splitAll sep cs := List.mem_cons_of_mem _ h2
        exact List.mem_cons_of_mem a (ih p this hc)

theorem length_splitAll (sep : Char) (s : Str) :
    (splitAll sep s).length = s.count sep + 1 := by
  induction s with
  | nil => rfl
  | cons c cs ih =>
    by_cases hc : c = sep
    · subst hc
      rw [splitAll_cons_sep]
      have hbeq : (c == c) = true := by simp
      simp only [List.length_cons, ih, List.count_cons, hbeq, if_true]
    · rw [splitAll_cons_ne sep c cs hc]
      have hrec : (splitAll sep cs).length = (splitChar sep cs).2.length + 1 := rfl
      have hbeq : (c == sep) = false := by simp [hc]
      rw [hrec] at ih
      simp only [List.length_cons, List.count_cons, hbeq]
      simp only [if_false, Bool.false_eq_true]
      omega

/-! ### Join lemmas -/

theorem joinSep_cons (sep x : Str) (xs : List Str) (h : xs ≠ []) :
    joinSep sep (x :: xs) = x ++ sep ++ joinSep sep xs := by
  cases xs with
  | nil => exact absurd rfl h
  | cons y ys => rfl

theorem joinSep_append (sep : Str) (as bs : List Str) (ha : as ≠ [])
    (hb : bs ≠ []) :
    joinSep sep (as ++ bs) = joinSep sep as ++ sep ++ joinSep sep bs := by
  induction as with
  | nil => exact absurd rfl ha
  | cons a as' ih =>
    cases as' with
    | nil =>
      rw [List.cons_append, List.nil_append, joinSep_cons sep a bs hb]
      rfl
    | cons a2 as2 =>
      have hne : a2 :: as2 ≠ [] := List.cons_ne_nil a2 as2
      have happ : a2 :: as2 ++ bs ≠ [] := by
        simp
      rw [List.cons_append, joinSep_cons sep a _ happ,
        ih hne, joinSep_cons sep a _ hne]
      simp [List.append_assoc]

theorem flatten_ne_nil (xss : List (List Str)) (hne : xss ≠ [])
    (h : ∀ l ∈ xss, l ≠ []) : xss.flatten ≠ [] := by
  cases xss with
  | nil => exact absurd rfl hne
  | cons l ls =>
    have hl : l ≠ [] := h l (List.mem_cons_self l ls)
    rw [List.flatten_cons]
    intro hc
    exact hl (List.append_eq_nil.mp hc).1

theorem joinSep_flatten (sep : Str) (xss : List (List Str))
    (h : ∀ l ∈ xss, l ≠ []) :
    joinSep sep (xss.map (joinSep sep)) = joinSep sep xss.flatten := by
  induction xss with
  | nil => rfl
  | cons l ls ih =>
    cases hls : ls with
    | nil => simp [joinSep]
    | cons l2 ls2 =>
      subst hls
      have hmem : ∀ x ∈ l2 :: ls2, x ≠ [] :=
        fun x hx => h x (List.mem_cons_of_mem l hx)
      have hmap : (l2 :: ls2).map (joinSep sep) ≠ [] := by simp
      have hfl : (l2 :: ls2).flatten ≠ [] :=
        flatten_ne_nil _ (List.cons_ne_nil _ _) hmem
      have hl : l ≠ [] := h l (List.mem_cons_self _ _)
      rw [List.map_cons, joinSep_cons sep _ _ hmap, ih hmem]
      conv_rhs => rw [List.flatten_cons]
      rw [joinSep_append sep l _ hl hfl]

theorem splitAll_joinSep (sep : Char) (ps : List Str) (hne : ps ≠ [])
    (h : ∀ p ∈ ps, sep ∉ p) :
    splitAll sep (joinSep [sep] ps) = ps := by
  induction ps with
  | nil => exact absurd rfl hne
  | cons p r ih =>
    cases hr : r with
    | nil =>
      have hp : sep ∉ p := h p (List.mem_cons_self _ _)
      simp only [joinSep]
      exact splitAll_nosep sep p hp
    | cons q r' =>
      subst hr
      have hp : sep ∉ p := h p (List.mem_cons_self _ _)
      have hmem : ∀ x ∈ q :: r', sep ∉ x :=
        fun x hx => h x (List.mem_cons_of_mem p hx)
      rw [joinSep_cons [sep] p _ (List.cons_ne_nil _ _)]
      have : p ++ [sep] ++ joinSep [sep] (q :: r') =
          p ++ sep :: joinSep [sep] (q :: r') := by
        simp
      rw [this, splitAll_append sep p _ hp, ih (List.cons_ne_nil _ _) hmem]

/-! ### Trim as exact whitespace removal -/

theorem isTrimOf_trim (s : Str) : isTrimOf (trim s) s := by
  obtain ⟨p, q, hp, hq, hs⟩ := trim_decomp s
  exact ⟨p, q, hs, hp, hq, head?_trim_not_ws s, getLast?_trim_not_ws s⟩

/-! ### Line-splitting (`str::lines`) lemmas -/

theorem keep_nil : keep [] = false := by decide

theorem mem_stripCR (l : Str) (c : Char) (h : c ∈ stripCR l) : c ∈ l := by
  unfold stripCR at h
  by_cases hc : l.getLast? = some '\r'
  · rw [if_pos hc] at h
    exact List.dropLast_subset l h
  · rwa [if_neg hc] at h

theorem filter_keep_rustCook (ps : List Str) (h : ∀ l ∈ ps, stripCR l = l) :
    (rustCook ps).filter keep = ps.filter keep := by
  induction ps with
  | nil => rfl
  | cons l ls ih =>
    cases ls with
    | nil =>
      by_cases hl : l.isEmpty
      · have hnil : l = [] := by
          cases l with
          | nil => rfl
          | cons a t => simp [List.isEmpty] at hl
        subst hnil
        simp [rustCook, List.filter_cons, keep_nil]
      · have hl' : l.isEmpty = false := by simpa using hl
        simp [rustCook, hl']
    | cons l2 ls2 =>
      have hl : stripCR l = l := h l (List.mem_cons_self _ _)
      have hmem : ∀ x ∈ l2 :: ls2, stripCR x = x :=
        fun x hx => h x (List.mem_cons_of_mem _ hx)
      rw [show rustCook (l :: l2 :: ls2) = stripCR l :: rustCook (l2 :: ls2)
        from rfl, hl]
      simp only [List.filter_cons, ih hmem]

theorem mem_rustCook (ps : List Str) (l : Str) (h : l ∈ rustCook ps) :
    ∃ p ∈ ps, l = stripCR p ∨ l = p := by
  induction ps with
  | nil => simp [rustCook] at h
  | cons x ls ih =>
    cases ls with
    | nil =>
      by_cases hx : x.isEmpty
      · simp [rustCook, hx] at h
      · have hx' : x.isEmpty = false := by simpa using hx
        simp only [rustCook, hx'] at h
        simp only [Bool.false_eq_true, if_false, List.mem_singleton] at h
        exact ⟨x, List.mem_cons_self _ _, Or.inr h⟩
    | cons x2 ls2 =>
      rw [show rustCook (x :: x2 :: ls2) = stripCR x :: rustCook (x2 :: ls2)
        from rfl] at h
      rcases List.mem_cons.mp h with h1 | h2
      · exact ⟨x, List.mem_cons_self _ _, Or.inl h1⟩
      · obtain ⟨p, hp, hlp⟩ := ih h2
        exact ⟨p, List.mem_cons_of_mem _ hp, hlp⟩

theorem mem_line_of_rustLines (data : Str) (l : Str) (c : Char)
    (hl : l ∈ rustLines data) (hc : c ∈ l) : c ∈ data := by
  obtain ⟨p, hp, hlp⟩ := mem_rustCook _ l hl
  have hcp : c ∈ p := by
    rcases hlp with h1 | h2
    · exact mem_stripCR p c (h1 ▸ hc)
    · exact h2 ▸ hc
  exact mem_of_mem_splitAll '\n' data p c hp hcp

theorem no_nl_of_rustLines (data : Str) (l : Str) (hl : l ∈ rustLines data) :
    '\n' ∉ l := by
  intro hc
  obtain ⟨p, hp, hlp⟩ := mem_rustCook _ l hl
  have hcp : '\n' ∈ p := by
    rcases hlp with h1 | h2
    · exact mem_stripCR p _ (h1 ▸ hc)
    · exact h2 ▸ hc
  exact mem_splitAll_not_sep '\n' data p hp hcp

/-! ### Parse-loop lemmas -/

theorem runLines_append (l1 l2 : List Str) (st : ParseState) :
    runLines (l1 ++ l2) st =
      match runLines l1 st with
      | .error e => .error e
      | .ok st2 => runLines l2 st2 := by
  induction l1 generalizing st with
  | nil => rfl
  | cons l ls ih =>
    simp only [List.cons_append, runLines]
    cases parseStep st l with
    | error e => rfl
    | ok st2 => exact ih st2

theorem parseStep_skip (st : ParseState) (l : Str) (h : keep l = false) :
    parseStep st l = .ok st := by
  have hc : (startsSlashSlash l || (trim l).isEmpty) = true := by
    cases hb : (startsSlashSlash l || (trim l).isEmpty) with
    | true => rfl
    | false =>
      rw [keep, hb] at h
      simp at h
  simp [parseStep, hc]

theorem runLines_filter (ls : List Str) (st : ParseState) :
    runLines ls st = runLines (ls.filter keep) st := by
  induction ls generalizing st with
  | nil => rfl
  | cons l ls ih =>
    by_cases hk : keep l
    · simp only [List.filter_cons, hk, if_true, runLines]
      cases parseStep st l with
      | error e => rfl
      | ok st2 => exact ih st2
    · have hk' : keep l = false := by simpa using hk
      simp only [List.filter_cons, hk', Bool.false_eq_true, if_false]
      simp only [runLines, parseStep_skip st l hk']
      exact ih st

theorem parse_bookmark_error (line e : Str)
    (h : parse_bookmark line = .error e) : e = bookmarkErrMsg := by
  unfold parse_bookmark at h
  split at h
  · exact absurd h (by simp)
  · injection h with h1
    exact h1.symm

theorem parse_header_error (line e : Str)
    (h : parse_header line = .error e) : e = headerErrMsg := by
  unfold parse_header at h
  split at h
  · exact absurd h (by simp)
  · exact absurd h (by simp)
  · injection h with h1
    exact h1.symm

theorem parseStep_error (st : ParseState) (l e : Str)
    (h : parseStep st l = .error e) :
    e = bookmarkErrMsg ∨ e = headerErrMsg := by
  unfold parseStep at h
  split at h
  · exact absurd h (by simp)
  · split at h
    · split at h
      · rename_i e2 heq
        injection h with h1
        exact Or.inr (h1 ▸ parse_header_error _ e2 heq)
      · exact absurd h (by simp)
    · split at h
      · split at h
        · rename_i e2 heq
          injection h with h1
          exact Or.inl (h1 ▸ parse_bookmark_error _ e2 heq)
        · exact absurd h (by simp)
      · exact absurd h (by simp)

theorem runLines_error (ls : List Str) (st : ParseState) (e : Str)
    (h : runLines ls st = .error e) :
    e = bookmarkErrMsg ∨ e = headerErrMsg := by
  induction ls generalizing st with
  | nil => exact absurd h (by simp [runLines])
  | cons l ls ih =>
    simp only [runLines] at h
    cases hps : parseStep st l with
    | ok st2 =>
      rw [hps] at h
      exact ih st2 h
    | error e2 =>
      rw [hps] at h
      injection h with h1
      exact h1 ▸ parseStep_error st l e2 hps

/-! ### Consequences of field well-formedness -/

theorem length_trimRight_le (s : Str) : (trimRight s).length ≤ s.length := by
  unfold trimRight
  rw [List.length_reverse]
  calc (s.reverse.dropWhile isWs).length
      ≤ s.reverse.length := length_dropWhile_le _ _
    _ = s.length := List.length_reverse s

theorem trimLeft_eq_self_of_trim (s : Str) (h : trim s = s) :
    trimLeft s = s := by
  have h1 : (trim s).length ≤ (trimLeft s).length := length_trimRight_le _
  have h2 : (trimLeft s).length ≤ s.length := length_dropWhile_le isWs s
  have h3 : (trim s).length = s.length := by rw [h]
  have h4 : (trimLeft s).length = s.length := by omega
  exact dropWhile_length_eq isWs s h4

theorem trimRight_eq_self_of_trim (s : Str) (h : trim s = s) :
    trimRight s = s := by
  have hL := trimLeft_eq_self_of_trim s h
  have hx : trim s = trimRight s := by unfold trim; rw [hL]
  rw [← hx, h]

theorem head_not_ws_of_trim (s : Str) (h : trim s = s) (a : Char)
    (ha : s.head? = some a) : isWs a = false :=
  dropWhile_eq_self_head isWs s a (trimLeft_eq_self_of_trim s h) ha

theorem last_not_ws_of_trim (s : Str) (h : trim s = s) (a : Char)
    (ha : s.getLast? = some a) : isWs a = false := by
  have hR := trimRight_eq_self_of_trim s h
  have hrev : s.reverse.dropWhile isWs = s.reverse := by
    have hc := congrArg List.reverse hR
    unfold trimRight at hc
    rwa [List.reverse_reverse] at hc
  refine dropWhile_eq_self_head isWs s.reverse a hrev ?_
  rw [List.head?_reverse]
  exact ha

theorem getLast?_pipe_field (pre s : Str) (htrim : trim s = s) (a : Char)
    (ha : (pre ++ '|' :: s).getLast? = some a) : isWs a = false := by
  cases hs : s with
  | nil =>
    subst hs
    rw [List.getLast?_concat] at ha
    injection ha with ha
    subst ha
    decide
  | cons b t =>
    subst hs
    rw [List.getLast?_append_of_ne_nil pre (List.cons_ne_nil _ _),
      List.getLast?_cons_cons] at ha
    exact last_not_ws_of_trim _ htrim a ha

theorem stripCR_eq_self_of_last (l : Str) (h : l.getLast? ≠ some '\r') :
    stripCR l = l := by
  unfold stripCR
  rw [if_neg h]

/-! ### Rendered bookmark lines -/

theorem renderBookmark_eq (b : Bookmark) :
    Bookmark.render b =
      b.name ++ '|' :: (b.description ++ '|' :: b.url) := by
  unfold Bookmark.render
  rw [List.append_assoc, List.cons_append]

theorem pipe_mem_renderBookmark (b : Bookmark) :
    '|' ∈ Bookmark.render b := by
  rw [renderBookmark_eq]
  exact List.mem_append.mpr (Or.inr (List.mem_cons_self _ _))

theorem trim_renderBookmark_ne_nil (b : Bookmark) :
    trim (Bookmark.render b) ≠ [] :=
  trim_ne_nil_of_mem _ '|' (pipe_mem_renderBookmark b) (by decide)

theorem startsHash_renderBookmark (b : Bookmark) (hb : bkNameOk b) :
    startsHash (Bookmark.render b) = false := by
  rw [renderBookmark_eq]
  cases hn : b.name with
  | nil => simp [startsHash]
  | cons a t =>
    rw [List.cons_append]
    have := hb.1
    rw [hn] at this
    simpa [startsHash] using this

theorem startsSlashSlash_renderBookmark (b : Bookmark) (hb : bkNameOk b) :
    startsSlashSlash (Bookmark.render b) = false := by
  rw [renderBookmark_eq]
  cases hn : b.name with
  | nil =>
    rw [List.nil_append]
    cases hd : b.description ++ '|' :: b.url with
    | nil => exact absurd hd (by simp)
    | cons d t => simp [startsSlashSlash]
  | cons a t =>
    cases ht : t with
    | nil =>
      rw [List.cons_append, List.nil_append]
      simp [startsSlashSlash]
    | cons a2 t2 =>
      rw [List.cons_append, List.cons_append]
      have := hb.2
      rw [hn, ht] at this
      simpa [startsSlashSlash] using this

theorem keep_renderBookmark (b : Bookmark) (hb : bkNameOk b) :
    keep (Bookmark.render b) = true := by
  unfold keep
  have h1 := trim_renderBookmark_ne_nil b
  have h2 : (trim (Bookmark.render b)).isEmpty = false := by
    cases hc : trim (Bookmark.render b) with
    | nil => exact absurd hc h1
    | cons x xs => rfl
  rw [startsSlashSlash_renderBookmark b hb, h2]
  rfl

theorem split_pipe_renderBookmark (b : Bookmark) (hb : wfBookmarkFields b) :
    split_pipe (Bookmark.render b) = [b.name, b.description, b.url] := by
  unfold split_pipe
  rw [renderBookmark_eq]
  rw [splitAll_append '|' b.name _ hb.1.2.2,
    splitAll_append '|' b.description _ hb.2.1.2.2,
    splitAll_nosep '|' b.url hb.2.2.2.2]

theorem parse_bookmark_render (b : Bookmark) (hb : wfBookmarkFields b) :
    parse_bookmark (Bookmark.render b) = .ok b := by
  unfold parse_bookmark
  rw [split_pipe_renderBookmark b hb]
  have h1 := hb.1.1
  have h2 := hb.2.1.1
  have h3 := hb.2.2.1
  cases b
  simp only at h1 h2 h3
  simp [h1, h2, h3]

theorem stripCR_renderBookmark (b : Bookmark) (hb : wfBookmarkFields b) :
    stripCR (Bookmark.render b) = Bookmark.render b := by
  refine stripCR_eq_self_of_last _ ?_
  intro hc
  unfold Bookmark.render at hc
  have := getLast?_pipe_field (b.name ++ '|' :: b.description) b.url
    hb.2.2.1 '\r' hc
  exact absurd this (by decide)

/-! ### Rendered header lines -/

theorem headerRender_eq (hh : Header) :
    Header.render hh = '#' :: headerBody hh := by
  unfold Header.render headerBody
  cases hh.icon <;> rfl

theorem headerBody_none (hh : Header) (hi : hh.icon = none) :
    headerBody hh = hh.name := by
  unfold headerBody
  rw [hi]

theorem headerBody_some (hh : Header) (i : Str) (hi : hh.icon = some i) :
    headerBody hh = hh.name ++ '|' :: i := by
  unfold headerBody
  rw [hi]

theorem trim_headerBody (hh : Header) (hw : wfHeaderFields hh) :
    trim (headerBody hh) = headerBody hh := by
  apply trim_eq_self_of
  · intro a ha
    cases hi : hh.icon with
    | none =>
      rw [headerBody_none hh hi] at ha
      exact head_not_ws_of_trim _ hw.1.1 a ha
    | some i =>
      rw [headerBody_some hh i hi] at ha
      cases hn : hh.name with
      | nil =>
        rw [hn, List.nil_append] at ha
        injection ha with ha
        subst ha
        decide
      | cons c t =>
        rw [hn, List.cons_append, List.head?_cons] at ha
        injection ha with ha
        subst ha
        refine head_not_ws_of_trim hh.name hw.1.1 c ?_
        rw [hn]
        rfl
  · intro a ha
    cases hi : hh.icon with
    | none =>
      rw [headerBody_none hh hi] at ha
      exact last_not_ws_of_trim _ hw.1.1 a ha
    | some i =>
      rw [headerBody_some hh i hi] at ha
      have hwi : wfField i := hw.2 i hi
      exact getLast?_pipe_field hh.name i hwi.1 a ha

theorem split_pipe_headerBody_none (hh : Header) (hw : wfHeaderFields hh)
    (hi : hh.icon = none) : split_pipe (headerBody hh) = [hh.name] := by
  unfold headerBody split_pipe
  rw [hi]
  exact splitAll_nosep '|' hh.name hw.1.2.2

theorem split_pipe_headerBody_some (hh : Header) (hw : wfHeaderFields hh)
    (i : Str) (hi : hh.icon = some i) :
    split_pipe (headerBody hh) = [hh.name, i] := by
  unfold headerBody split_pipe
  rw [hi]
  have hwi : wfField i := hw.2 i hi
  rw [splitAll_append '|' hh.name i hw.1.2.2, splitAll_nosep '|' i hwi.2.2]

theorem parse_header_render (hh : Header) (hw : wfHeaderFields hh) :
    parse_header (trim ((Header.render hh).drop 1)) = .ok hh := by
  rw [headerRender_eq]
  rw [show ('#' :: headerBody hh).drop 1 = headerBody hh from rfl]
  rw [trim_headerBody hh hw]
  unfold parse_header
  cases hi : hh.icon with
  | none =>
    rw [split_pipe_headerBody_none hh hw hi]
    show Except.ok ⟨trim hh.name, none⟩ = Except.ok hh
    rw [hw.1.1, ← hi]
  | some i =>
    rw [split_pipe_headerBody_some hh hw i hi]
    show Except.ok ⟨trim hh.name, some (trim i)⟩ = Except.ok hh
    rw [hw.1.1, (hw.2 i hi).1, ← hi]

theorem hash_mem_headerLine (hh : Header) : '#' ∈ Header.render hh := by
  rw [headerRender_eq]
  exact List.mem_cons_self _ _

theorem startsSlashSlash_headerLine (hh : Header) :
    startsSlashSlash (Header.render hh) = false := by
  rw [headerRender_eq]
  cases headerBody hh with
  | nil => rfl
  | cons c t => simp [startsSlashSlash]

theorem trim_headerLine_ne_nil (hh : Header) :
    trim (Header.render hh) ≠ [] :=
  trim_ne_nil_of_mem _ '#' (hash_mem_headerLine hh) (by decide)

theorem startsHash_headerLine (hh : Header) :
    startsHash (Header.render hh) = true := by
  rw [headerRender_eq]
  simp [startsHash]

theorem keep_headerLine (hh : Header) : keep (Header.render hh) = true := by
  unfold keep
  have h2 : (trim (Header.render hh)).isEmpty = false := by
    cases hc : trim (Header.render hh) with
    | nil => exact absurd hc (trim_headerLine_ne_nil hh)
    | cons x xs => rfl
  rw [startsSlashSlash_headerLine hh, h2]
  rfl

theorem stripCR_headerLine (hh : Header) (hw : wfHeaderFields hh) :
    stripCR (Header.render hh) = Header.render hh := by
  refine stripCR_eq_self_of_last _ ?_
  intro hc
  rw [headerRender_eq] at hc
  cases hi : hh.icon with
  | some i =>
    rw [headerBody_some hh i hi] at hc
    rw [show '#' :: (hh.name ++ '|' :: i) = ('#' :: hh.name) ++ '|' :: i
      from rfl] at hc
    have hwi : wfField i := hw.2 i hi
    have := getLast?_pipe_field ('#' :: hh.name) i hwi.1 '\r' hc
    exact absurd this (by decide)
  | none =>
    rw [headerBody_none hh hi] at hc
    cases hn : hh.name with
    | nil =>
      rw [hn] at hc
      injection hc with hc
      exact absurd hc (by decide)
    | cons c t =>
      rw [hn] at hc
      rw [show ('#' :: c :: t).getLast? = (c :: t).getLast? from
        List.getLast?_cons_cons] at hc
      have hlast : hh.name.getLast? = some '\r' := by rw [hn]; exact hc
      have := last_not_ws_of_trim hh.name hw.1.1 '\r' hlast
      exact absurd this (by decide)

theorem parseStep_headerLine (st : ParseState) (hh : Header)
    (hw : wfHeaderFields hh) :
    parseStep st (Header.render hh) =
      .ok (st.1 ++ st.2.toList, some ⟨hh, []⟩) := by
  unfold parseStep
  have h2 : (trim (Header.render hh)).isEmpty = false := by
    cases hc : trim (Header.render hh) with
    | nil => exact absurd hc (trim_headerLine_ne_nil hh)
    | cons x xs => rfl
  rw [startsSlashSlash_headerLine hh, h2]
  simp only [Bool.or_self, Bool.false_eq_true, if_false]
  rw [startsHash_headerLine hh]
  simp only [if_true]
  rw [parse_header_render hh hw]

/-! ### Running the parser over rendered blocks -/

theorem parseStep_bookmarkLine (cats : List Category) (c : Category)
    (b : Bookmark) (hw : wfBookmarkFields b) (hn : bkNameOk b) :
    parseStep (cats, some c) (Bookmark.render b) =
      .ok (cats, some ⟨c.header, c.bookmarks ++ [b]⟩) := by
  unfold parseStep
  have h2 : (trim (Bookmark.render b)).isEmpty = false := by
    cases hc : trim (Bookmark.render b) with
    | nil => exact absurd hc (trim_renderBookmark_ne_nil b)
    | cons x xs => rfl
  rw [startsSlashSlash_renderBookmark b hn, h2,
    startsHash_renderBookmark b hn, parse_bookmark_render b hw]
  rfl

theorem runLines_bookmarkBlock (bs : List Bookmark) (cats : List Category)
    (hdr : Header) (acc : List Bookmark)
    (hb : ∀ b ∈ bs, wfBookmarkFields b ∧ bkNameOk b) :
    runLines (bs.map Bookmark.render) (cats, some ⟨hdr, acc⟩) =
      .ok (cats, some ⟨hdr, acc ++ bs⟩) := by
  induction bs generalizing acc with
  | nil => simp [runLines]
  | cons b bs ih =>
    have hwb := hb b (List.mem_cons_self _ _)
    have hstep := parseStep_bookmarkLine cats ⟨hdr, acc⟩ b hwb.1 hwb.2
    calc runLines ((b :: bs).map Bookmark.render) (cats, some ⟨hdr, acc⟩)
        = runLines (bs.map Bookmark.render) (cats, some ⟨hdr, acc ++ [b]⟩) := by
          simp only [List.map_cons, runLines, hstep]
      _ = .ok (cats, some ⟨hdr, (acc ++ [b]) ++ bs⟩) :=
          ih _ (fun x hx => hb x (List.mem_cons_of_mem _ hx))
      _ = .ok (cats, some ⟨hdr, acc ++ b :: bs⟩) := by
          rw [← List.append_cons]

theorem runLines_cat (c : Category) (st : ParseState) (hw : wfCatFields c)
    (hn : nameOkCat c) :
    runLines (catLines c) st = .ok (st.1 ++ st.2.toList, some c) := by
  unfold catLines
  simp only [runLines, parseStep_headerLine st c.header hw.1]
  rw [runLines_bookmarkBlock c.bookmarks (st.1 ++ st.2.toList) c.header []
    (fun b hb => ⟨hw.2 b hb, hn b hb⟩)]
  rw [List.nil_append]

theorem runLines_cats (cats : List Category) (st : ParseState)
    (hw : ∀ c ∈ cats, wfCatFields c ∧ nameOkCat c) :
    ∃ st2, runLines ((cats.map catLines).flatten) st = .ok st2 ∧
      st2.1 ++ st2.2.toList = st.1 ++ st.2.toList ++ cats := by
  induction cats generalizing st with
  | nil => exact ⟨st, rfl, by simp⟩
  | cons c cs ih =>
    have hwc := hw c (List.mem_cons_self _ _)
    obtain ⟨st2, h1, h2⟩ := ih (st.1 ++ st.2.toList, some c)
      (fun x hx => hw x (List.mem_cons_of_mem _ hx))
    refine ⟨st2, ?_, ?_⟩
    · simp only [List.map_cons, List.flatten_cons]
      rw [runLines_append, runLines_cat c st hwc.1 hwc.2]
      exact h1
    · rw [h2]
      simp [List.append_assoc]

/-! ### Rendering as joined lines -/

theorem catRender_eq_joinSep (c : Category) :
    Category.render c = joinSep ['\n'] (catLinesF c) := by
  unfold Category.render catLinesF
  cases hb : c.bookmarks with
  | nil =>
    simp only [List.isEmpty_nil, if_true, List.map_nil]
    show Header.render c.header ++ '\n' :: joinSep ['\n'] [] =
      joinSep ['\n'] [Header.render c.header, []]
    simp [joinSep]
  | cons b bs =>
    simp only [List.isEmpty_cons, Bool.false_eq_true, if_false, List.map_cons]
    conv_rhs => rw [joinSep_cons ['\n'] _ _ (List.cons_ne_nil _ _)]
    simp [List.append_assoc]

theorem sbmRender_eq (cats : List Category) :
    Sbm.render ⟨cats⟩ = joinSep ['\n'] ((cats.map catLinesF).flatten) := by
  show joinSep ['\n'] (cats.map Category.render) = _
  have h1 : cats.map Category.render =
      (cats.map catLinesF).map (joinSep ['\n']) := by
    rw [List.map_map]
    exact List.map_congr_left (fun c _ => catRender_eq_joinSep c)
  rw [h1]
  refine joinSep_flatten ['\n'] _ (fun l hl => ?_)
  obtain ⟨c, _, rfl⟩ := List.mem_map.mp hl
  unfold catLinesF
  exact List.cons_ne_nil _ _

theorem no_nl_renderBookmark (b : Bookmark) (h1 : '\n' ∉ b.name)
    (h2 : '\n' ∉ b.description) (h3 : '\n' ∉ b.url) :
    '\n' ∉ Bookmark.render b := by
  intro h
  rw [renderBookmark_eq] at h
  rcases List.mem_append.mp h with ha | hb
  · exact h1 ha
  · rcases List.mem_cons.mp hb with he | hc
    · exact absurd he (by decide)
    · rcases List.mem_append.mp hc with hd | he2
      · exact h2 hd
      · rcases List.mem_cons.mp he2 with he | hf
        · exact absurd he (by decide)
        · exact h3 hf

theorem no_nl_headerLine (hh : Header) (h1 : '\n' ∉ hh.name)
    (h2 : ∀ i ∈ hh.icon, '\n' ∉ i) : '\n' ∉ Header.render hh := by
  intro h
  rw [headerRender_eq] at h
  rcases List.mem_cons.mp h with he | hb
  · exact absurd he (by decide)
  · cases hi : hh.icon with
    | none =>
      rw [headerBody_none _ hi] at hb
      exact h1 hb
    | some i =>
      rw [headerBody_some _ i hi] at hb
      rcases List.mem_append.mp hb with ha | hc
      · exact h1 ha
      · rcases List.mem_cons.mp hc with he | hd
        · exact absurd he (by decide)
        · exact h2 i hi hd

theorem no_nl_catLinesF (c : Category) (hw : wfCatFields c) :
    ∀ l ∈ catLinesF c, '\n' ∉ l := by
  intro l hl
  unfold catLinesF at hl
  rcases List.mem_cons.mp hl with h1 | h2
  · subst h1
    exact no_nl_headerLine c.header hw.1.1.2.1 (fun i hi => (hw.1.2 i hi).2.1)
  · cases hbs : c.bookmarks with
    | nil =>
      rw [hbs] at h2
      simp only [List.isEmpty_nil, if_true, List.mem_singleton] at h2
      subst h2
      exact List.not_mem_nil _
    | cons b bs =>
      rw [hbs] at h2
      simp only [List.isEmpty_cons, Bool.false_eq_true, if_false] at h2
      obtain ⟨b2, hb2, rfl⟩ := List.mem_map.mp h2
      have hwb := hw.2 b2 (hbs ▸ hb2)
      exact no_nl_renderBookmark b2 hwb.1.2.1 hwb.2.1.2.1 hwb.2.2.2.1

theorem stripCR_catLinesF (c : Category) (hw : wfCatFields c) :
    ∀ l ∈ catLinesF c, stripCR l = l := by
  intro l hl
  unfold catLinesF at hl
  rcases List.mem_cons.mp hl with h1 | h2
  · subst h1
    exact stripCR_headerLine c.header hw.1
  · cases hbs : c.bookmarks with
    | nil =>
      rw [hbs] at h2
      simp only [List.isEmpty_nil, if_true, List.mem_singleton] at h2
      subst h2
      rfl
    | cons b bs =>
      rw [hbs] at h2
      simp only [List.isEmpty_cons, Bool.false_eq_true, if_false] at h2
      obtain ⟨b2, hb2, rfl⟩ := List.mem_map.mp h2
      exact stripCR_renderBookmark b2 (hw.2 b2 (hbs ▸ hb2))

theorem filter_keep_catLinesF (c : Category) (_hw : wfCatFields c)
    (hn : nameOkCat c) : (catLinesF c).filter keep = catLines c := by
  unfold catLinesF catLines
  rw [List.filter_cons, keep_headerLine c.header]
  simp only [if_true]
  cases hbs : c.bookmarks with
  | nil =>
    simp only [List.isEmpty_nil, if_true, List.map_nil]
    rw [List.filter_cons, keep_nil]
    rfl
  | cons b bs =>
    simp only [List.isEmpty_cons, Bool.false_eq_true, if_false]
    congr 1
    rw [List.filter_eq_self]
    intro l hl
    obtain ⟨b2, hb2, rfl⟩ := List.mem_map.mp hl
    exact keep_renderBookmark b2 (hn b2 (hbs ▸ hb2))

theorem filteredLines_render_eq (cats : List Category) (hcats : cats ≠ [])
    (hw : ∀ c ∈ cats, wfCatFields c) (hn : ∀ c ∈ cats, nameOkCat c) :
    (rustLines (Sbm.render ⟨cats⟩)).filter keep =
      (cats.map catLines).flatten := by
  rw [sbmRender_eq]
  unfold rustLines
  have hnn : ∀ l ∈ (cats.map catLinesF).flatten, '\n' ∉ l := by
    intro l hl
    obtain ⟨ls, hls, hll⟩ := List.mem_flatten.mp hl
    obtain ⟨c, hc, rfl⟩ := List.mem_map.mp hls
    exact no_nl_catLinesF c (hw c hc) l hll
  have hne : (cats.map catLinesF).flatten ≠ [] := by
    refine flatten_ne_nil _ ?_ ?_
    · cases cats with
      | nil => exact absurd rfl hcats
      | cons c cs => simp
    · intro l hl
      obtain ⟨c, _, rfl⟩ := List.mem_map.mp hl
      unfold catLinesF
      exact List.cons_ne_nil _ _
  rw [splitAll_joinSep '\n' _ hne hnn]
  rw [filter_keep_rustCook _ (by
    intro l hl
    obtain ⟨ls, hls, hll⟩ := List.mem_flatten.mp hl
    obtain ⟨c, hc, rfl⟩ := List.mem_map.mp hls
    exact stripCR_catLinesF c (hw c hc) l hll)]
  rw [List.filter_flatten keep _, List.map_map]
  congr 1
  exact List.map_congr_left (fun c hc =>
    filter_keep_catLinesF c (hw c hc) (hn c hc))

theorem parse_render_of_wf (cats : List Category)
    (hw : ∀ c ∈ cats, wfCatFields c) (hn : ∀ c ∈ cats, nameOkCat c) :
    parse_categories (Sbm.render ⟨cats⟩) = .ok cats := by
  cases hcs : cats with
  | nil =>
    subst hcs
    decide
  | cons c0 cs0 =>
    subst hcs
    unfold parse_categories
    rw [runLines_filter]
    rw [filteredLines_render_eq _ (List.cons_ne_nil _ _) hw hn]
    obtain ⟨st2, h1, h2⟩ := runLines_cats (c0 :: cs0) ([], none)
      (fun c hc => ⟨hw c hc, hn c hc⟩)
    rw [h1]
    show Except.ok (st2.1 ++ st2.2.toList) = Except.ok (c0 :: cs0)
    rw [show st2.1 ++ st2.2.toList = c0 :: cs0 from by simpa using h2]

/-! ### Fields of a successful parse are trimmed and separator-free -/

theorem wfField_trim_piece (line piece : Str) (hnl : '\n' ∉ line)
    (hp : piece ∈ split_pipe line) : wfField (trim piece) := by
  refine ⟨trim_idem piece, ?_, ?_⟩
  · intro hmem
    exact hnl (mem_of_mem_splitAll '|' line piece '\n' hp (mem_trim piece _ hmem))
  · intro hmem
    exact mem_splitAll_not_sep '|' line piece hp (mem_trim piece _ hmem)

theorem parse_header_ok_wf (line : Str) (hh : Header) (hnl : '\n' ∉ line)
    (h : parse_header line = .ok hh) : wfHeaderFields hh := by
  unfold parse_header at h
  split at h
  · rename_i a heq
    injection h with h
    subst h
    refine ⟨wfField_trim_piece line a hnl (by rw [heq]; exact List.mem_singleton.mpr rfl), ?_⟩
    intro i hi
    exact absurd hi (by simp)
  · rename_i a b heq
    injection h with h
    subst h
    refine ⟨wfField_trim_piece line a hnl (by rw [heq]; exact List.mem_cons_self _ _), ?_⟩
    intro i hi
    simp only [Option.mem_def, Option.some.injEq] at hi
    subst hi
    exact wfField_trim_piece line b hnl
      (by rw [heq]; exact List.mem_cons_of_mem _ (List.mem_singleton.mpr rfl))
  · exact absurd h (by simp)

theorem parse_bookmark_ok_wf (line : Str) (b : Bookmark) (hnl : '\n' ∉ line)
    (h : parse_bookmark line = .ok b) : wfBookmarkFields b := by
  unfold parse_bookmark at h
  split at h
  · rename_i x y z heq
    injection h with h
    subst h
    have hx : x ∈ split_pipe line := by rw [heq]; exact List.mem_cons_self _ _
    have hy : y ∈ split_pipe line := by
      rw [heq]; exact List.mem_cons_of_mem _ (List.mem_cons_self _ _)
    have hz : z ∈ split_pipe line := by
      rw [heq]
      exact List.mem_cons_of_mem _ (List.mem_cons_of_mem _ (List.mem_singleton.mpr rfl))
    exact ⟨wfField_trim_piece line x hnl hx, wfField_trim_piece line y hnl hy,
      wfField_trim_piece line z hnl hz⟩
  · exact absurd h (by simp)

theorem parseStep_wf (st stm : ParseState) (l : Str) (hnl : '\n' ∉ l)
    (hst1 : ∀ c ∈ st.1, wfCatFields c)
    (hst2 : ∀ c, st.2 = some c → wfCatFields c)
    (h : parseStep st l = .ok stm) :
    (∀ c ∈ stm.1, wfCatFields c) ∧ (∀ c, stm.2 = some c → wfCatFields c) := by
  unfold parseStep at h
  split at h
  · injection h with h
    subst h
    exact ⟨hst1, hst2⟩
  · split at h
    · split at h
      · exact absurd h (by simp)
      · rename_i hh heq
        injection h with h
        subst h
        constructor
        · intro c hc
          rcases List.mem_append.mp hc with h1 | h2
          · exact hst1 c h1
          · cases hso : st.2 with
            | none => rw [hso] at h2; exact absurd h2 (by simp)
            | some c2 =>
              rw [hso] at h2
              simp only [Option.toList_some, List.mem_singleton] at h2
              subst h2
              exact hst2 c hso
        · intro c hc
          simp only [Option.some.injEq] at hc
          subst hc
          refine ⟨?_, ?_⟩
          · refine parse_header_ok_wf _ hh ?_ heq
            intro hm
            exact hnl (List.mem_of_mem_drop (mem_trim _ _ hm))
          · intro b hb
            exact absurd hb (List.not_mem_nil b)
    · split at h
      · rename_i c2 hso
        split at h
        · exact absurd h (by simp)
        · rename_i b heq
          injection h with h
          subst h
          constructor
          · intro c hc
            exact hst1 c hc
          · intro c hc
            simp only [Option.some.injEq] at hc
            subst hc
            have hc2 := hst2 c2 hso
            refine ⟨hc2.1, ?_⟩
            intro b2 hb2
            rcases List.mem_append.mp hb2 with h1 | h2
            · exact hc2.2 b2 h1
            · rw [List.mem_singleton] at h2
              subst h2
              exact parse_bookmark_ok_wf l b2 hnl heq
      · injection h with h
        subst h
        exact ⟨hst1, hst2⟩

theorem runLines_wf (ls : List Str) (st st2 : ParseState)
    (hls : ∀ l ∈ ls, '\n' ∉ l)
    (hst1 : ∀ c ∈ st.1, wfCatFields c)
    (hst2 : ∀ c, st.2 = some c → wfCatFields c)
    (h : runLines ls st = .ok st2) :
    (∀ c ∈ st2.1, wfCatFields c) ∧ (∀ c, st2.2 = some c → wfCatFields c) := by
  induction ls generalizing st with
  | nil =>
    simp only [runLines] at h
    injection h with h
    subst h
    exact ⟨hst1, hst2⟩
  | cons l ls ih =>
    simp only [runLines] at h
    cases hps : parseStep st l with
    | error e =>
      rw [hps] at h
      exact absurd h (by simp)
    | ok stm =>
      rw [hps] at h
      have hm := parseStep_wf st stm l (hls l (List.mem_cons_self _ _)) hst1 hst2 hps
      exact ih stm (fun x hx => hls x (List.mem_cons_of_mem _ hx)) hm.1 hm.2 h

theorem parse_ok_wf (data : Str) (cs : List Category)
    (h : parse_categories data = .ok cs) : ∀ c ∈ cs, wfCatFields c := by
  unfold parse_categories at h
  cases hr : runLines (rustLines data) ([], none) with
  | error e =>
    rw [hr] at h
    exact absurd h (by simp)
  | ok st2 =>
    rw [hr] at h
    injection h with h
    subst h
    have hwf := runLines_wf (rustLines data) ([], none) st2
      (fun l hl => no_nl_of_rustLines data l hl) (by simp) (by simp) hr
    intro c hc
    rcases List.mem_append.mp hc with h1 | h2
    · exact hwf.1 c h1
    · cases hso : st2.2 with
      | none =>
        rw [hso] at h2
        exact absurd h2 (by simp)
      | some c2 =>
        rw [hso] at h2
        simp only [Option.toList_some, List.mem_singleton] at h2
        subst h2
        exact hwf.2 c hso

/-! ### Order preservation: parser against the segment specification -/

theorem parseStep_keep_header (st : ParseState) (l : Str) (hk : keep l = true)
    (hh : startsHash l = true) :
    parseStep st l =
      match parse_header (trim (l.drop 1)) with
      | .error e => .error e
      | .ok h => .ok (st.1 ++ st.2.toList, some ⟨h, []⟩) := by
  unfold parseStep
  have hc : (startsSlashSlash l || (trim l).isEmpty) = false := by
    cases hb : (startsSlashSlash l || (trim l).isEmpty) with
    | false => rfl
    | true =>
      rw [keep, hb] at hk
      simp at hk
  rw [hc, hh]
  rfl

theorem parseStep_keep_bookmark (st : ParseState) (l : Str)
    (hk : keep l = true) (hh : startsHash l = false) :
    parseStep st l =
      match st.2 with
      | some c =>
        match parse_bookmark l with
        | .error e => .error e
        | .ok b => .ok (st.1, some ⟨c.header, c.bookmarks ++ [b]⟩)
      | none => .ok st := by
  unfold parseStep
  have hc : (startsSlashSlash l || (trim l).isEmpty) = false := by
    cases hb : (startsSlashSlash l || (trim l).isEmpty) with
    | false => rfl
    | true =>
      rw [keep, hb] at hk
      simp at hk
  rw [hc, hh]
  rfl

theorem specSegs_cons_header (l : Str) (ls : List Str)
    (h : startsHash l = true) :
    specSegs (l :: ls) = ((l, (specSegs ls).2) :: (specSegs ls).1, []) := by
  simp [specSegs, h]

theorem specSegs_cons_other (l : Str) (ls : List Str)
    (h : startsHash l = false) :
    specSegs (l :: ls) = ((specSegs ls).1, l :: (specSegs ls).2) := by
  simp [specSegs, h]

theorem runLines_segs (ls : List Str) (cats : List Category)
    (cur : Option Category) (st2 : ParseState)
    (hk : ∀ l ∈ ls, keep l = true)
    (h : runLines ls (cats, cur) = .ok st2) :
    match cur with
    | none => ∃ tl, st2.1 ++ st2.2.toList = cats ++ tl ∧
        List.Forall₂ catSegRel tl (specSegs ls).1
    | some c => ∃ bs tl, st2.1 ++ st2.2.toList =
        cats ++ (⟨c.header, c.bookmarks ++ bs⟩ :: tl) ∧
        List.Forall₂ bkLineRel bs (specSegs ls).2 ∧
        List.Forall₂ catSegRel tl (specSegs ls).1 := by
  induction ls generalizing cats cur with
  | nil =>
    simp only [runLines] at h
    injection h with h
    subst h
    cases cur with
    | none => exact ⟨[], by simp, List.Forall₂.nil⟩
    | some c => exact ⟨[], [], by simp, List.Forall₂.nil, List.Forall₂.nil⟩
  | cons l ls ih =>
    have hkl := hk l (List.mem_cons_self _ _)
    have hkr : ∀ x ∈ ls, keep x = true :=
      fun x hx => hk x (List.mem_cons_of_mem _ hx)
    by_cases hh : startsHash l = true
    · cases hph : parse_header (trim (l.drop 1)) with
      | error e =>
        have hps : parseStep (cats, cur) l = .error e := by
          rw [parseStep_keep_header _ l hkl hh, hph]
        simp only [runLines, hps] at h
        exact absurd h (by simp)
      | ok hhd =>
        have hps : parseStep (cats, cur) l =
            .ok (cats ++ cur.toList, some ⟨hhd, []⟩) := by
          rw [parseStep_keep_header _ l hkl hh, hph]
        simp only [runLines, hps] at h
        have hres := ih (cats ++ cur.toList) (some ⟨hhd, []⟩) hkr h
        obtain ⟨bs, tl, he, hbs, htl⟩ := hres
        rw [specSegs_cons_header l ls hh]
        cases cur with
        | none =>
          refine ⟨⟨hhd, bs⟩ :: tl, ?_, List.Forall₂.cons ⟨hph, hbs⟩ htl⟩
          rw [he]
          simp
        | some c =>
          refine ⟨[], ⟨hhd, bs⟩ :: tl, ?_, List.Forall₂.nil,
            List.Forall₂.cons ⟨hph, hbs⟩ htl⟩
          rw [he]
          simp
    · have hh' : startsHash l = false := by simpa using hh
      rw [specSegs_cons_other l ls hh']
      cases cur with
      | none =>
        have hps : parseStep (cats, none) l = .ok (cats, none) := by
          rw [parseStep_keep_bookmark _ l hkl hh']
        simp only [runLines, hps] at h
        obtain ⟨tl, he, htl⟩ := ih cats none hkr h
        exact ⟨tl, he, htl⟩
      | some c =>
        cases hpb : parse_bookmark l with
        | error e =>
          have hps : parseStep (cats, some c) l = .error e := by
            rw [parseStep_keep_bookmark _ l hkl hh', hpb]
          simp only [runLines, hps] at h
          exact absurd h (by simp)
        | ok b =>
          have hps : parseStep (cats, some c) l =
              .ok (cats, some ⟨c.header, c.bookmarks ++ [b]⟩) := by
            rw [parseStep_keep_bookmark _ l hkl hh', hpb]
          simp only [runLines, hps] at h
          obtain ⟨bs, tl, he, hbs, htl⟩ :=
            ih cats (some ⟨c.header, c.bookmarks ++ [b]⟩) hkr h
          refine ⟨b :: bs, tl, ?_, List.Forall₂.cons hpb hbs, htl⟩
          rw [he]
          simp [List.append_assoc]

/-! ### Remaining helper lemmas for the claims -/

theorem count_pipe_trim (s : Str) : (trim s).count '|' = s.count '|' := by
  obtain ⟨p, q, hp, hq, hs⟩ := trim_decomp s
  have hcp : p.count '|' = 0 := by
    rw [List.count_eq_zero]
    intro hm
    have := hp '|' hm
    exact absurd this (by decide)
  have hcq : q.count '|' = 0 := by
    rw [List.count_eq_zero]
    intro hm
    have := hq '|' hm
    exact absurd this (by decide)
  conv_rhs => rw [hs]
  rw [List.count_append, List.count_append, hcp, hcq]
  omega

theorem parseStep_none_skip (l : Str)
    (h : startsSlashSlash l = true ∨ trim l = [] ∨ startsHash l = false) :
    parseStep ([], none) l = .ok ([], none) := by
  unfold parseStep
  by_cases hc : (startsSlashSlash l || (trim l).isEmpty) = true
  · rw [hc]
    rfl
  · have hc' : (startsSlashSlash l || (trim l).isEmpty) = false := by
      simpa using hc
    rw [hc']
    have hboth := Bool.or_eq_false_iff.mp hc'
    have hsh : startsHash l = false := by
      rcases h with h1 | h2 | h3
      · rw [h1] at hboth
        exact absurd hboth.1 (by simp)
      · rw [h2] at hboth
        exact absurd hboth.2 (by simp)
      · exact h3
    rw [hsh]
    rfl

theorem runLines_no_header (ls : List Str)
    (h : ∀ l ∈ ls, startsSlashSlash l = true ∨ trim l = [] ∨
      startsHash l = false) :
    runLines ls ([], none) = .ok ([], none) := by
  induction ls with
  | nil => rfl
  | cons l ls ih =>
    simp only [runLines, parseStep_none_skip l (h l (List.mem_cons_self _ _))]
    exact ih (fun x hx => h x (List.mem_cons_of_mem _ hx))

theorem renderBookmark_ne_nil (b : Bookmark) : Bookmark.render b ≠ [] := by
  rw [renderBookmark_eq]
  simp

theorem catLinesF_eq_catLines (c : Category) (h : c.bookmarks ≠ []) :
    catLinesF c = catLines c := by
  unfold catLinesF catLines
  cases hb : c.bookmarks with
  | nil => exact absurd hb h
  | cons b bs => simp

/-! ### Claim theorems -/

/-- Claim C1, counterexample: the input places the bookmark line
`Rust|desc|url` before any header, yet `parse_categories` succeeds and the
line is silently discarded — no `BookmarkBeforeHeader` diagnostic is
returned, contrary to the claim. -/
theorem c1_counterexample :
    parse_categories ("Rust|desc|url\n#Later").data =
      .ok [⟨⟨("Later").data, none⟩, []⟩] := by decide

/-- Claim C1 (amended): the parser never produces a `BookmarkBeforeHeader`
diagnostic — a bookmark line before any header is silently skipped, and
every parse error is one of the two arity messages (`MalformedBookmark`,
`MalformedHeader`). -/
theorem c1_error_messages (data e : Str)
    (h : parse_categories data = .error e) :
    e = bookmarkErrMsg ∨ e = headerErrMsg := by
  unfold parse_categories at h
  cases hr : runLines (rustLines data) ([], none) with
  | error e2 =>
    rw [hr] at h
    injection h with h
    subst h
    exact runLines_error _ _ _ hr
  | ok st =>
    rw [hr] at h
    exact absurd h (by simp)

/-- Witness for C1: a malformed bookmark under a header produces exactly the
bookmark arity message. -/
theorem c1_witness :
    parse_categories ("#H\nRust|x").data = .error bookmarkErrMsg ∧
      (bookmarkErrMsg = bookmarkErrMsg ∨ bookmarkErrMsg = headerErrMsg) :=
  ⟨by decide, c1_error_messages ("#H\nRust|x").data bookmarkErrMsg (by decide)⟩

/-- Claim C2, counterexample: the text `"#H\n #a|b|c"` parses successfully
(the leading space keeps the line a bookmark line, and its name trims to
`#a`), but re-parsing its rendering fails: the rendered bookmark line
`#a|b|c` is reclassified as a header with three fields. -/
theorem c2_counterexample :
    parse_categories ("#H\n #a|b|c").data =
      .ok [⟨⟨("H").data, none⟩, [⟨("#a").data, ("b").data, ("c").data⟩]⟩] ∧
    parse_categories (Sbm.render ⟨[⟨⟨("H").data, none⟩,
      [⟨("#a").data, ("b").data, ("c").data⟩]⟩]⟩) = .error headerErrMsg :=
  ⟨by decide, by decide⟩

/-- Claim C2 (amended): for every text that parses successfully to a
document none of whose bookmark names begins with `#` or `//`, re-parsing
the rendering succeeds and returns the same document. -/
theorem c2_roundtrip (data : Str) (cs : List Category)
    (h : parse_categories data = .ok cs)
    (hn : ∀ c ∈ cs, nameOkCat c) :
    parse_categories (Sbm.render ⟨cs⟩) = .ok cs :=
  parse_render_of_wf cs (parse_ok_wf data cs h) hn

/-- Witness for C2 at a concrete parsed document. -/
theorem c2_witness :
    parse_categories (Sbm.render ⟨[⟨⟨("H").data, none⟩,
      [⟨("Rust").data, ("x").data, ("url").data⟩]⟩]⟩) =
      .ok [⟨⟨("H").data, none⟩, [⟨("Rust").data, ("x").data, ("url").data⟩]⟩] :=
  c2_roundtrip ("#H\nRust|x|url").data _ (by decide) (by decide)

/-- Claim C3, counterexample: the document built by the constructors with
bookmark name `" a"` (a leading space, no `|` anywhere, header name without
`#`) does not survive the round trip — parsing its rendering trims the
name to `"a"`. -/
theorem c3_counterexample :
    parse_categories (Sbm.render (Sbm.new [⟨Header.new ("H").data none,
      [Bookmark.new (" a").data ("b").data ("c").data]⟩])) ≠
      .ok (Sbm.new [⟨Header.new ("H").data none,
        [Bookmark.new (" a").data ("b").data ("c").data]⟩]).cats := by decide

/-- Claim C3 (amended): a programmatically constructed document round-trips
through rendering and parsing provided every string field is trimmed — a
fixed point of Rust's `str::trim`, i.e. with no leading or trailing
Unicode whitespace — and contains neither `|` nor a newline, and no
bookmark name begins with `#` or `//` (the untrimmed counterexample
forces the trimming condition). -/
theorem c3_roundtrip_constructed (cats : List Category)
    (hw : ∀ c ∈ cats, wfCatFields c) (hn : ∀ c ∈ cats, nameOkCat c) :
    parse_categories (Sbm.render (Sbm.new cats)) = .ok cats :=
  parse_render_of_wf cats hw hn

/-- Witness for C3 at a concrete well-formed document (with an icon and an
empty description). -/
theorem c3_witness :
    parse_categories (Sbm.render (Sbm.new [⟨Header.new ("H").data
      (some ("I").data), [Bookmark.new ("a").data ("").data ("c").data]⟩])) =
      .ok [⟨Header.new ("H").data (some ("I").data),
        [Bookmark.new ("a").data ("").data ("c").data]⟩] :=
  c3_roundtrip_constructed _ (by decide) (by decide)

/-- Claim C4, counterexample: a category with zero bookmarks does not render
as exactly the header line — `Display for Category` always writes the
newline after the header, so `#A` becomes `"#A\n"`, and a document ending
in such a category has a trailing newline. -/
theorem c4_counterexample :
    Category.render ⟨⟨("A").data, none⟩, []⟩ = ("#A\n").data ∧
    Sbm.render ⟨[⟨⟨("A").data, none⟩, []⟩]⟩ = ("#A\n").data ∧
    ("#A\n").data ≠ ("#A").data :=
  ⟨by decide, by decide, by decide⟩

/-- Claim C4 (amended): a category renders as its header line, a newline,
then the newline-joined bookmark renderings, so a category with zero
bookmarks renders as the header line followed by one trailing newline;
and for a document whose categories all have at least one bookmark (and
whose fields contain no newline), the newline-split pieces of the rendering
are exactly the header and bookmark lines, all nonempty — hence no leading
or trailing newline and no blank separator line. -/
theorem c4_render_shape :
    (∀ c : Category, c.bookmarks = [] →
      Category.render c = Header.render c.header ++ ['\n']) ∧
    (∀ cats : List Category, cats ≠ [] →
      (∀ c ∈ cats, c.bookmarks ≠ []) → (∀ c ∈ cats, noNlCat c) →
      splitAll '\n' (Sbm.render ⟨cats⟩) = (cats.map catLines).flatten ∧
      ∀ l ∈ (cats.map catLines).flatten, l ≠ []) := by
  constructor
  · intro c hb
    unfold Category.render
    rw [hb]
    rfl
  · intro cats hne hbne hnl
    have hcf : cats.map catLinesF = cats.map catLines :=
      List.map_congr_left (fun c hc => catLinesF_eq_catLines c (hbne c hc))
    have hmem : ∀ l ∈ (cats.map catLines).flatten, l ≠ [] := by
      intro l hl
      obtain ⟨ls, hls, hll⟩ := List.mem_flatten.mp hl
      obtain ⟨c, hc, rfl⟩ := List.mem_map.mp hls
      unfold catLines at hll
      rcases List.mem_cons.mp hll with h1 | h2
      · subst h1
        rw [headerRender_eq]
        exact List.cons_ne_nil _ _
      · obtain ⟨b, _, rfl⟩ := List.mem_map.mp h2
        exact renderBookmark_ne_nil b
    refine ⟨?_, hmem⟩
    rw [sbmRender_eq, hcf]
    refine splitAll_joinSep '\n' _ ?_ ?_
    · refine flatten_ne_nil _ ?_ ?_
      · cases cats with
        | nil => exact absurd rfl hne
        | cons c cs => simp
      · intro l hl
        obtain ⟨c, _, rfl⟩ := List.mem_map.mp hl
        unfold catLines
        exact List.cons_ne_nil _ _
    · intro l hl
      obtain ⟨ls, hls, hll⟩ := List.mem_flatten.mp hl
      obtain ⟨c, hc, rfl⟩ := List.mem_map.mp hls
      have hcnl := hnl c hc
      unfold catLines at hll
      rcases List.mem_cons.mp hll with h1 | h2
      · subst h1
        exact no_nl_headerLine c.header hcnl.1 hcnl.2.1
      · obtain ⟨b, hb, rfl⟩ := List.mem_map.mp h2
        have := hcnl.2.2 b hb
        exact no_nl_renderBookmark b this.1 this.2.1 this.2.2

/-- Witness for C4: the zero-bookmark part at `#A`, and the line-shape part
at a two-category document with one bookmark each. -/
theorem c4_witness :
    Category.render ⟨⟨("A").data, none⟩, []⟩ =
      Header.render ⟨("A").data, none⟩ ++ ['\n'] ∧
    (splitAll '\n' (Sbm.render ⟨[⟨⟨("A").data, none⟩,
        [⟨("x").data, ("y").data, ("z").data⟩]⟩]⟩) =
      ([⟨⟨("A").data, none⟩, [⟨("x").data, ("y").data, ("z").data⟩]⟩].map
        catLines).flatten ∧
      ∀ l ∈ ([⟨⟨("A").data, none⟩, [⟨("x").data, ("y").data,
        ("z").data⟩]⟩].map catLines).flatten, l ≠ []) :=
  ⟨c4_render_shape.1 _ rfl,
    c4_render_shape.2 _ (by decide) (by decide) (by decide)⟩

/-- Claim C5, counterexample: the raw bookmark-name field "a" followed by
a trailing no-break space U+00A0 contains no ASCII whitespace at all, so
removing exactly its leading and trailing ASCII whitespace would store it
unchanged — yet `str::trim` strips the U+00A0 and the code stores `"a"`. -/
theorem c5_counterexample :
    parse_bookmark ("a\u00a0|b|c").data =
      .ok ⟨("a").data, ("b").data, ("c").data⟩ ∧
    (∀ c ∈ ("a\u00a0").data, isAsciiWs c = false) ∧
    ("a").data ≠ ("a\u00a0").data :=
  ⟨by decide, by decide, by decide⟩

/-- Claim C5 (amended): every successfully parsed field is the raw
`|`-separated field with exactly its leading and trailing whitespace
removed, where whitespace is Rust's `char::is_whitespace` (Unicode
`White_Space`, strictly more than ASCII whitespace).  `isTrimOf` exhibits
the whitespace prefix and suffix and states the result neither starts nor
ends with whitespace, so interior whitespace is preserved verbatim. -/
theorem c5_fields_trimmed :
    (∀ line b, parse_bookmark line = .ok b →
      ∃ x y z, split_pipe line = [x, y, z] ∧ isTrimOf b.name x ∧
        isTrimOf b.description y ∧ isTrimOf b.url z) ∧
    (∀ line hh, parse_header line = .ok hh →
      (∃ x, split_pipe line = [x] ∧ isTrimOf hh.name x ∧ hh.icon = none) ∨
      (∃ x y, split_pipe line = [x, y] ∧ isTrimOf hh.name x ∧
        ∃ i, hh.icon = some i ∧ isTrimOf i y)) := by
  constructor
  · intro line b h
    unfold parse_bookmark at h
    split at h
    · rename_i x y z heq
      injection h with h
      subst h
      exact ⟨x, y, z, heq, isTrimOf_trim x, isTrimOf_trim y, isTrimOf_trim z⟩
    · exact absurd h (by simp)
  · intro line hh h
    unfold parse_header at h
    split at h
    · rename_i x heq
      injection h with h
      subst h
      exact Or.inl ⟨x, heq, isTrimOf_trim x, rfl⟩
    · rename_i x y heq
      injection h with h
      subst h
      exact Or.inr ⟨x, y, heq, isTrimOf_trim x, trim y, rfl, isTrimOf_trim y⟩
    · exact absurd h (by simp)

/-- Witness for C5 at concrete lines with leading/trailing and interior
whitespace. -/
theorem c5_witness :
    (∃ x y z, split_pipe (" a b | c | d ").data = [x, y, z] ∧
      isTrimOf ("a b").data x ∧ isTrimOf ("c").data y ∧
      isTrimOf ("d").data z) ∧
    ((∃ x, split_pipe (" n ").data = [x] ∧ isTrimOf ("n").data x ∧
        (none : Option Str) = none) ∨
      (∃ x y, split_pipe (" n ").data = [x, y] ∧ isTrimOf ("n").data x ∧
        ∃ i, (none : Option Str) = some i ∧ isTrimOf i y)) :=
  ⟨c5_fields_trimmed.1 (" a b | c | d ").data
      ⟨("a b").data, ("c").data, ("d").data⟩ (by decide),
    c5_fields_trimmed.2 (" n ").data ⟨("n").data, none⟩ (by decide)⟩

/-- Claim C6: a bookmark line parses successfully iff splitting on `|`
yields exactly three fields; any other arity yields the `MalformedBookmark`
message, and on success the trimmed fields become name, description, url
in positional order. -/
theorem c6_bookmark_arity (line : Str) :
    (∀ x y z, split_pipe line = [x, y, z] →
      parse_bookmark line = .ok ⟨trim x, trim y, trim z⟩) ∧
    ((split_pipe line).length ≠ 3 →
      parse_bookmark line = .error bookmarkErrMsg) := by
  constructor
  · intro x y z heq
    unfold parse_bookmark
    rw [heq]
  · intro hlen
    unfold parse_bookmark
    split
    · rename_i x y z heq
      rw [heq] at hlen
      simp at hlen
    · rfl

/-- Witness for C6: success at arity three, failure at arity two. -/
theorem c6_witness :
    parse_bookmark ("a|b|c").data =
      .ok ⟨trim ("a").data, trim ("b").data, trim ("c").data⟩ ∧
    parse_bookmark ("a|b").data = .error bookmarkErrMsg :=
  ⟨(c6_bookmark_arity ("a|b|c").data).1 ("a").data ("b").data ("c").data
      (by decide),
    (c6_bookmark_arity ("a|b").data).2 (by decide)⟩

/-- Claim C7: a header body parses successfully iff splitting on `|` yields
one or two fields, any other arity yielding the `MalformedHeader` message;
on success the icon is present iff the split had a second field (even one
that trims to empty), and trimming the body first (as the parse loop does
to the text after `#`) never changes the field count. -/
theorem c7_header_arity (line : Str) :
    (∀ x, split_pipe line = [x] → parse_header line = .ok ⟨trim x, none⟩) ∧
    (∀ x y, split_pipe line = [x, y] →
      parse_header line = .ok ⟨trim x, some (trim y)⟩) ∧
    ((split_pipe line).length ≠ 1 → (split_pipe line).length ≠ 2 →
      parse_header line = .error headerErrMsg) ∧
    (∀ hh, parse_header line = .ok hh →
      (hh.icon.isSome ↔ (split_pipe line).length = 2)) ∧
    (split_pipe (trim line)).length = (split_pipe line).length := by
  refine ⟨?_, ?_, ?_, ?_, ?_⟩
  · intro x heq
    unfold parse_header
    rw [heq]
  · intro x y heq
    unfold parse_header
    rw [heq]
  · intro h1 h2
    unfold parse_header
    split
    · rename_i x heq
      rw [heq] at h1
      simp at h1
    · rename_i x y heq
      rw [heq] at h2
      simp at h2
    · rfl
  · intro hh h
    unfold parse_header at h
    split at h
    · rename_i x heq
      injection h with h
      subst h
      rw [heq]
      simp
    · rename_i x y heq
      injection h with h
      subst h
      rw [heq]
      simp
    · exact absurd h (by simp)
  · unfold split_pipe
    rw [length_splitAll, length_splitAll, count_pipe_trim]

/-- Witness for C7: one field, two fields (empty icon), three fields, the
icon-presence equivalence, and trim-invariance of the arity. -/
theorem c7_witness :
    parse_header ("n").data = .ok ⟨trim ("n").data, none⟩ ∧
    parse_header ("n|").data = .ok ⟨trim ("n").data, some (trim ("").data)⟩ ∧
    parse_header ("a|b|c").data = .error headerErrMsg ∧
    ((some (trim ("").data) : Option Str).isSome ↔
      (split_pipe ("n|").data).length = 2) ∧
    (split_pipe (trim (" a|b ").data)).length =
      (split_pipe (" a|b ").data).length :=
  ⟨(c7_header_arity ("n").data).1 ("n").data (by decide),
    (c7_header_arity ("n|").data).2.1 ("n").data ("").data (by decide),
    (c7_header_arity ("a|b|c").data).2.2.1 (by decide) (by decide),
    (c7_header_arity ("n|").data).2.2.2.1 ⟨trim ("n").data,
      some (trim ("").data)⟩ ((c7_header_arity ("n|").data).2.1 ("n").data
        ("").data (by decide)),
    (c7_header_arity (" a|b ").data).2.2.2.2⟩

/-- Claim C8: on success the categories correspond positionally (via
`List.Forall₂`) to the segments of the comment/blank-filtered source
lines — each header line in source order opens the category whose
bookmarks are positionally the parses of the bookmark lines following it,
in source order. -/
theorem c8_order_preserved (data : Str) (cs : List Category)
    (h : parse_categories data = .ok cs) :
    List.Forall₂ catSegRel cs (specSegs (filteredLines data)).1 := by
  unfold parse_categories at h
  cases hr : runLines (rustLines data) ([], none) with
  | error e =>
    rw [hr] at h
    exact absurd h (by simp)
  | ok st2 =>
    rw [hr] at h
    injection h with h
    subst h
    rw [runLines_filter] at hr
    have hseg := runLines_segs (filteredLines data) [] none st2
      (fun l hl => (List.mem_filter.mp hl).2) hr
    obtain ⟨tl, he, htl⟩ := hseg
    rwa [show st2.1 ++ st2.2.toList = tl from by simpa using he]

/-- Witness for C8 at a two-category input with an interleaved comment. -/
theorem c8_witness :
    List.Forall₂ catSegRel
      [⟨⟨("A").data, none⟩, [⟨("x").data, ("y").data, ("z").data⟩]⟩,
        ⟨⟨("B").data, some ("i").data⟩, []⟩]
      (specSegs (filteredLines ("#A\nx|y|z\n// c\n#B|i").data)).1 :=
  c8_order_preserved ("#A\nx|y|z\n// c\n#B|i").data _ (by decide)

/-- Claim C9: if no line of the input (beyond comments and blanks) begins
with `#`, parsing succeeds with an empty category list, whatever the
remaining lines contain — pre-header bookmark lines are skipped without
ever reaching `parse_bookmark`. -/
theorem c9_no_header_empty (data : Str)
    (h : ∀ l ∈ rustLines data, startsSlashSlash l = true ∨ trim l = [] ∨
      startsHash l = false) :
    parse_categories data = .ok [] := by
  unfold parse_categories
  rw [runLines_no_header (rustLines data) h]
  rfl

/-- Witness for C9: a malformed bookmark line, a comment, a blank and an
arbitrary line, with no header anywhere, parse to the empty document. -/
theorem c9_witness : parse_categories ("x|y\n// c\n \nfoo").data = .ok [] :=
  c9_no_header_empty ("x|y\n// c\n \nfoo").data (by decide)

/-- Claim C10: the constructors store their string arguments verbatim —
no trimming happens at construction time, so the parse-time trimming
invariant fails for suitably chosen constructed values. -/
theorem c10_constructors_verbatim :
    (∀ n d u : Str, (Bookmark.new n d u).name = n ∧
      (Bookmark.new n d u).description = d ∧ (Bookmark.new n d u).url = u) ∧
    (∀ n : Str, ∀ i : Option Str,
      (Header.new n i).name = n ∧ (Header.new n i).icon = i) ∧
    (∃ n d u : Str, trim (Bookmark.new n d u).name ≠ (Bookmark.new n d u).name) ∧
    (∃ n : Str, ∃ i : Option Str,
      trim (Header.new n i).name ≠ (Header.new n i).name) :=
  ⟨fun n d u => ⟨rfl, rfl, rfl⟩, fun n i => ⟨rfl, rfl⟩,
    ⟨(" x").data, [], [], by decide⟩, ⟨(" y").data, none, by decide⟩⟩
